import Mathlib

/-!
Verification of the multi-objective Pareto-front box-decomposition and
hypervolume core of this repository.

The repository ships only the Sphinx module declarations for
`botorch.utils.multi_objective.box_decompositions` (abstract box
decompositions, the box-decomposition list, dominated and non-dominated
partitionings, hypervolume, and the Pareto filter); the implementation
files themselves are not present.  All operational definitions below are
therefore modelled from the specification, which fixes the data model
(points under a maximization convention, a reference point, Pareto sets as
maximal antichains, partitions into axis-aligned hyperrectangles), the
dominance relation, the pairwise Pareto filter with stable deduplication,
the exact sweep partitioning for low dimension, and the update/query
contracts.  We instantiate the exact low-dimension code path at M = 2
objectives (the dimension of every concrete scenario in the specification)
with exact rational coordinates standing for finite double-precision
reals, so that all stated tolerance-qualified equalities can be proved
exactly.
-/

/-- Modelled from the spec: an objective-value point of the exact
low-dimension code path, instantiated at M = 2; coordinates are exact
rationals standing for finite reals under the maximization convention. -/
abbrev Point := ℚ × ℚ

/-- Modelled from the spec: maximize-convention dominance; `a` dominates
`b` iff `a` is at least as large in every coordinate and strictly larger
in at least one. -/
def dominates (a b : Point) : Prop :=
  b.1 ≤ a.1 ∧ b.2 ≤ a.2 ∧ (b.1 < a.1 ∨ b.2 < a.2)

instance (a b : Point) : Decidable (dominates a b) := by
  unfold dominates; infer_instance

/-- Modelled from the spec: a point weakly dominated by the reference
point in every coordinate contributes no hypervolume and is dropped by
the Pareto filter. -/
def belowRef (r p : Point) : Prop := p.1 ≤ r.1 ∧ p.2 ≤ r.2

instance (r p : Point) : Decidable (belowRef r p) := by
  unfold belowRef; infer_instance

/-- Keep decision of the pairwise Pareto filter: a candidate is kept iff no
point of the whole input dominates it, it is not below the reference point
in every coordinate, and no earlier (already scanned) occurrence had the
same coordinates. -/
def paretoKeep (r : Point) (all earlier : List Point) (p : Point) : Bool :=
  decide (∀ q ∈ all, ¬ dominates q p) && decide (¬ belowRef r p) &&
    decide (p ∉ earlier)

/-- Scanning loop of the Pareto filter; `earlier` accumulates the already
scanned prefix (for the first-occurrence tie-break on duplicates). -/
def paretoAux (r : Point) (all : List Point) :
    List Point → List Point → List Point
  | _, [] => []
  | earlier, p :: rest =>
    if paretoKeep r all earlier p then
      p :: paretoAux r all (p :: earlier) rest
    else
      paretoAux r all (p :: earlier) rest

/-- Modelled from the spec: `compute_pareto(points, reference_point)`, the
O(n²·M) pairwise Pareto filter with stable first-occurrence deduplication
and removal of points dominated by the reference point in every
coordinate. -/
def compute_pareto (pts : List Point) (r : Point) : List Point :=
  paretoAux r pts [] pts

/-- Clamp a point from below at the reference point; the dominated region
is bounded below by the reference point, so each Pareto point's box is the
clamped one. -/
def clampPt (r p : Point) : Point := (max r.1 p.1, max r.2 p.2)

/-- Total order used by the exact 2-d sweep: sort by first coordinate
ascending, breaking ties by second coordinate descending. -/
def lexLe (a b : Point) : Prop :=
  a.1 < b.1 ∨ (a.1 = b.1 ∧ b.2 ≤ a.2)

instance (a b : Point) : Decidable (lexLe a b) := by
  unfold lexLe; infer_instance

instance : IsTotal Point lexLe where
  total a b := by
    rcases lt_trichotomy a.1 b.1 with h | h | h
    · exact Or.inl (Or.inl h)
    · rcases le_total b.2 a.2 with h2 | h2
      · exact Or.inl (Or.inr ⟨h, h2⟩)
      · exact Or.inr (Or.inr ⟨h.symm, h2⟩)
    · exact Or.inr (Or.inl h)

instance : IsTrans Point lexLe where
  trans a b c hab hbc := by
    rcases hab with h1 | ⟨h1, h1'⟩ <;> rcases hbc with h2 | ⟨h2, h2'⟩
    · exact Or.inl (h1.trans h2)
    · exact Or.inl (h2 ▸ h1)
    · exact Or.inl (h1 ▸ h2)
    · exact Or.inr ⟨h1.trans h2, h2'.trans h1'⟩

instance : IsAntisymm Point lexLe where
  antisymm a b hab hba := by
    rcases hab with h1 | ⟨h1, h1'⟩ <;> rcases hba with h2 | ⟨h2, h2'⟩
    · exact absurd h2 (lt_asymm h1)
    · exact absurd h1 (h2 ▸ lt_irrefl _)
    · exact absurd h2 (h1 ▸ lt_irrefl _)
    · exact Prod.ext h1 (le_antisymm h2' h1')

/-- The sweep of the exact 2-d dominated partitioning: points sorted by
`lexLe`, each contributing the box from the previous sweep abscissa up to
its own coordinates, bounded below by the reference point. -/
def domBoxesGo (r : Point) : ℚ → List Point → List (Point × Point)
  | _, [] => []
  | prevX, p :: rest => ((prevX, r.2), p) :: domBoxesGo r p.1 rest

/-- Dominated partition of the region below the front and above the
reference point, as a list of (lower, upper) hyperrectangles. -/
def domBoxes (r : Point) (front : List Point) : List (Point × Point) :=
  domBoxesGo r r.1 front

/-- The sweep of the exact 2-d non-dominated partitioning: the complement
of the dominated region within the outer bounding box `[r, u]`. -/
def nondomBoxesGo (r u : Point) : ℚ → List Point → List (Point × Point)
  | prevX, [] => [((prevX, r.2), u)]
  | prevX, p :: rest => ((prevX, p.2), (p.1, u.2)) :: nondomBoxesGo r u p.1 rest

/-- Non-dominated partition within the outer bounding box. -/
def nondomBoxes (r u : Point) (front : List Point) : List (Point × Point) :=
  nondomBoxesGo r u r.1 front

/-- Volume of one axis-aligned box given as a (lower, upper) corner pair. -/
def boxVol (b : Point × Point) : ℚ := (b.2.1 - b.1.1) * (b.2.2 - b.1.2)

/-- Modelled from the spec: hypervolume of a partition is the sum of the
box volumes `Π_i (upper_i − lower_i)`. -/
def hvBoxes (bs : List (Point × Point)) : ℚ := (bs.map boxVol).sum

/-- Second coordinate of the head of a list, with a default. -/
def hd2 (d : ℚ) : List Point → ℚ
  | [] => d
  | p :: _ => p.2

/-- Staircase volume formula: volume of the union of the boxes
`[r, p]` over the points `p` of a sorted clamped front, counting for each
point only the part of its box above the next point's height. -/
def sweepVol (r : Point) : List Point → ℚ
  | [] => 0
  | p :: rest => (p.1 - r.1) * (p.2 - hd2 r.2 rest) + sweepVol r rest

/-- Closed-form incremental scan for the hypervolume improvement of one
new (clamped) point `c`: walks the sorted front and adds, per sweep strip,
the width still covered by `c` times the height by which `c` exceeds the
front. -/
def hviGo (c : Point) (r2 : ℚ) : ℚ → List Point → ℚ
  | prevMin, [] => (c.1 - prevMin) * (c.2 - r2)
  | prevMin, q :: rest =>
    (min c.1 q.1 - prevMin) * (c.2 - min c.2 q.2) +
      hviGo c r2 (min c.1 q.1) rest

/-- Modelled from the spec: a `DominatedPartitioning` owns its reference
point and accumulated point set; the Pareto set and partition are derived
from them (full recomputation on every update, as the spec mandates for
path independence). -/
structure DominatedPartitioning where
  ref : Point
  points : List Point

namespace DominatedPartitioning

/-- The Pareto set held by the decomposition. -/
def pareto (dp : DominatedPartitioning) : List Point :=
  compute_pareto dp.points dp.ref

/-- The Pareto front clamped at the reference point and sorted for the
exact 2-d sweep. -/
def sortedFront (dp : DominatedPartitioning) : List Point :=
  List.insertionSort lexLe (dp.pareto.map (clampPt dp.ref))

/-- The dominated partition of the decomposition. -/
def partition (dp : DominatedPartitioning) : List (Point × Point) :=
  domBoxes dp.ref dp.sortedFront

/-- Modelled from the spec: hypervolume is the sum of the partition's box
volumes. -/
def hypervolume (dp : DominatedPartitioning) : ℚ :=
  hvBoxes dp.partition

/-- Modelled from the spec: `add_points` folds new points into the
accumulated point set; Pareto set and partition are recomputed from the
accumulated set. -/
def add_points (dp : DominatedPartitioning) (ps : List Point) :
    DominatedPartitioning :=
  ⟨dp.ref, dp.points ++ ps⟩

/-- Modelled from the spec: `hypervolume_improvement(new_point)` by the
closed-form incremental formula (no partition rebuild, no mutation of the
decomposition). -/
def hypervolume_improvement (dp : DominatedPartitioning) (p : Point) : ℚ :=
  hviGo (clampPt dp.ref p) dp.ref.2 dp.ref.1 dp.sortedFront

end DominatedPartitioning

/-- Modelled from the spec: a `NonDominatedPartitioning` additionally owns
the upper corner of the explicit outer bounding box `[ref, upper]`. -/
structure NonDominatedPartitioning where
  ref : Point
  upper : Point
  points : List Point

namespace NonDominatedPartitioning

/-- The Pareto set held by the decomposition. -/
def pareto (nd : NonDominatedPartitioning) : List Point :=
  compute_pareto nd.points nd.ref

/-- The clamped, sorted Pareto front feeding the sweep. -/
def sortedFront (nd : NonDominatedPartitioning) : List Point :=
  List.insertionSort lexLe (nd.pareto.map (clampPt nd.ref))

/-- The non-dominated partition: the complement of the dominated region
within the outer bounding box. -/
def partition (nd : NonDominatedPartitioning) : List (Point × Point) :=
  nondomBoxes nd.ref nd.upper nd.sortedFront

end NonDominatedPartitioning

/-- Modelled from the spec: a raw input coordinate, which is either a
finite value or one of the non-finite doubles (NaN, +Inf, -Inf) that the
validation layer must reject. -/
inductive Val
  | fin : ℚ → Val
  | nan : Val
  | inf : Val
  | neginf : Val
deriving DecidableEq

/-- Whether a raw coordinate is finite. -/
def Val.isFinite : Val → Bool
  | .fin _ => true
  | _ => false

/-- Modelled from the spec: a raw input point is a list of raw coordinates
of arbitrary length, to be validated against the reference point's
dimensionality (M = 2 here). -/
abbrev RawPoint := List Val

/-- Modelled from the spec's error taxonomy. -/
inductive BoxDecompositionError
  | invalidDimension
  | nonFiniteValue
deriving DecidableEq

/-- A raw point is bad iff its coordinate count differs from the reference
point's (M = 2) or some coordinate is non-finite. -/
def badPoint (p : RawPoint) : Prop :=
  p.length ≠ 2 ∨ ∃ v ∈ p, v.isFinite = false

instance (p : RawPoint) : Decidable (badPoint p) := by
  unfold badPoint; infer_instance

/-- Validate one raw point: wrong dimensionality yields
`invalidDimension`, a non-finite coordinate yields `nonFiniteValue`. -/
def validatePoint (p : RawPoint) : Except BoxDecompositionError Point :=
  match p with
  | [Val.fin a, Val.fin b] => .ok (a, b)
  | _ =>
    if p.length = 2 then .error .nonFiniteValue
    else .error .invalidDimension

/-- Validate a whole batch of raw points; the first failure aborts the
call before any state is touched. -/
def validatePoints : List RawPoint → Except BoxDecompositionError (List Point)
  | [] => .ok []
  | p :: rest =>
    match validatePoint p, validatePoints rest with
    | .ok q, .ok qs => .ok (q :: qs)
    | .error e, _ => .error e
    | .ok _, .error e => .error e

/-- Modelled from the spec: the validating `add_points` entry point; all
input validation happens before the accumulated state is rebuilt, so a
failing call leaves the decomposition untouched (the error carries no new
state). -/
def DominatedPartitioning.add_points_checked (dp : DominatedPartitioning)
    (raws : List RawPoint) : Except BoxDecompositionError DominatedPartitioning :=
  match validatePoints raws with
  | .ok ps => .ok (dp.add_points ps)
  | .error e => .error e

/-- Modelled from the spec: a `BatchBoxDecompositionList` is a sequence of
independently owned decompositions, one per batch index, with no shared
state. -/
abbrev BatchBoxDecompositionList := List DominatedPartitioning

/-- Batched hypervolume: one scalar per batch index. -/
def batch_hypervolume (b : BatchBoxDecompositionList) : List ℚ :=
  b.map DominatedPartitioning.hypervolume

/-- Per-index update applied by the batched `add_points`: a rejected batch
entry leaves that index's decomposition unchanged. -/
def batchUpdate (dp : DominatedPartitioning) (raws : List RawPoint) :
    DominatedPartitioning :=
  match dp.add_points_checked raws with
  | .ok dp' => dp'
  | .error _ => dp

/-- Batched `add_points` over ragged per-index point sets: each index is
updated using only that index's points. -/
def batch_add_points (b : BatchBoxDecompositionList)
    (pss : List (List RawPoint)) : BatchBoxDecompositionList :=
  List.zipWith batchUpdate b pss

theorem paretoKeep_iff {r : Point} {all earlier : List Point} {p : Point} :
    paretoKeep r all earlier p = true ↔
      (∀ q ∈ all, ¬ dominates q p) ∧ ¬ belowRef r p ∧ p ∉ earlier := by
  simp [paretoKeep, and_assoc]

theorem mem_paretoAux (r : Point) (all : List Point) :
    ∀ (rest earlier : List Point) (x : Point),
      x ∈ paretoAux r all earlier rest ↔
        x ∈ rest ∧ (∀ q ∈ all, ¬ dominates q x) ∧ ¬ belowRef r x ∧
          x ∉ earlier := by
  intro rest
  induction rest with
  | nil => intro earlier x; simp [paretoAux]
  | cons p rest ih =>
    intro earlier x
    by_cases hk : paretoKeep r all earlier p = true
    · simp only [paretoAux]
      rw [if_pos hk]
      rw [paretoKeep_iff] at hk
      constructor
      · intro hx
        rcases List.mem_cons.mp hx with hxe | hxr
        · subst hxe
          exact ⟨List.mem_cons_self _ _, hk.1, hk.2.1, hk.2.2⟩
        · obtain ⟨h1, h2, h3, h4⟩ := (ih (p :: earlier) x).mp hxr
          exact ⟨List.mem_cons_of_mem _ h1, h2, h3,
            fun hc => h4 (List.mem_cons_of_mem _ hc)⟩
      · rintro ⟨hmem, h2, h3, h4⟩
        by_cases hxp : x = p
        · subst hxp; exact List.mem_cons_self _ _
        · rcases List.mem_cons.mp hmem with h | h
          · exact absurd h hxp
          · exact List.mem_cons_of_mem _ ((ih (p :: earlier) x).mpr
              ⟨h, h2, h3, by simp [List.mem_cons, hxp, h4]⟩)
    · simp only [paretoAux]
      rw [if_neg hk]
      rw [paretoKeep_iff] at hk
      constructor
      · intro hx
        obtain ⟨h1, h2, h3, h4⟩ := (ih (p :: earlier) x).mp hx
        exact ⟨List.mem_cons_of_mem _ h1, h2, h3,
          fun hc => h4 (List.mem_cons_of_mem _ hc)⟩
      · rintro ⟨hmem, h2, h3, h4⟩
        by_cases hxp : x = p
        · subst hxp; exact absurd ⟨h2, h3, h4⟩ hk
        · rcases List.mem_cons.mp hmem with h | h
          · exact absurd h hxp
          · exact (ih (p :: earlier) x).mpr
              ⟨h, h2, h3, by simp [List.mem_cons, hxp, h4]⟩

theorem mem_compute_pareto (pts : List Point) (r : Point) (x : Point) :
    x ∈ compute_pareto pts r ↔
      x ∈ pts ∧ (∀ q ∈ pts, ¬ dominates q x) ∧ ¬ belowRef r x := by
  unfold compute_pareto
  rw [mem_paretoAux]
  simp

theorem nodup_paretoAux (r : Point) (all : List Point) :
    ∀ (rest earlier : List Point), (paretoAux r all earlier rest).Nodup := by
  intro rest
  induction rest with
  | nil => intro earlier; simp [paretoAux]
  | cons p rest ih =>
    intro earlier
    by_cases hk : paretoKeep r all earlier p = true
    · simp only [paretoAux]
      rw [if_pos hk]
      refine List.nodup_cons.mpr ⟨?_, ih _⟩
      intro hc
      exact ((mem_paretoAux r all rest (p :: earlier) p).mp hc).2.2.2
        (List.mem_cons_self _ _)
    · simp only [paretoAux]
      rw [if_neg hk]
      exact ih _

theorem nodup_compute_pareto (pts : List Point) (r : Point) :
    (compute_pareto pts r).Nodup :=
  nodup_paretoAux r pts pts []

/-- C1: for the 2-objective maximization input with reference point (0,0)
and points {(1,5), (4,2), (3,3)}, `compute_pareto` returns the input set
unchanged (no point dominates another) and the hypervolume of the
`DominatedPartitioning` built from these points is exactly 13. -/
theorem c1_concrete_pareto_and_hypervolume :
    compute_pareto [(1, 5), (4, 2), (3, 3)] (0, 0) = [(1, 5), (4, 2), (3, 3)] ∧
      DominatedPartitioning.hypervolume ⟨(0, 0), [(1, 5), (4, 2), (3, 3)]⟩ = 13 := by
  constructor
  · decide
  · norm_num [DominatedPartitioning.hypervolume, DominatedPartitioning.partition,
      DominatedPartitioning.sortedFront, DominatedPartitioning.pareto,
      compute_pareto, paretoAux, paretoKeep, dominates, belowRef, clampPt,
      lexLe, List.insertionSort, List.orderedInsert, domBoxes, domBoxesGo,
      hvBoxes, boxVol]

/-- C5: the Pareto set produced by `compute_pareto` is an antichain under
the maximize-convention dominance relation: for distinct members, neither
dominates the other.  Every `DominatedPartitioning` or
`NonDominatedPartitioning` holds exactly `compute_pareto` of its
accumulated points (by definition of `pareto`), after construction as
after any `add_points`, so the invariant holds for every decomposition
state. -/
theorem c5_pareto_antichain (pts : List Point) (r : Point) (a b : Point)
    (ha : a ∈ compute_pareto pts r) (hb : b ∈ compute_pareto pts r)
    (hab : a ≠ b) : ¬ dominates a b ∧ ¬ dominates b a := by
  have ha' := (mem_compute_pareto pts r a).mp ha
  have hb' := (mem_compute_pareto pts r b).mp hb
  exact ⟨hb'.2.1 a ha'.1, ha'.2.1 b hb'.1⟩

theorem c5_pareto_antichain_witness :
    ¬ dominates (1, 5) (4, 2) ∧ ¬ dominates (4, 2) (1, 5) :=
  c5_pareto_antichain [(1, 5), (4, 2), (3, 3)] (0, 0) (1, 5) (4, 2)
    (by decide) (by decide) (by decide)

/-- C8: membership of the `compute_pareto` output is invariant under
permutation of the input; a kept coordinate vector appears exactly once in
the output (one representative per duplicate class — in a scan the kept
occurrence is the first, and all occurrences share the same coordinates);
and every point weakly dominated by the reference point in every
coordinate is absent from the output. -/
theorem c8_compute_pareto_determinism (pts pts' : List Point) (r x : Point) :
    (pts.Perm pts' →
      (x ∈ compute_pareto pts r ↔ x ∈ compute_pareto pts' r)) ∧
    (x ∈ compute_pareto pts r → (compute_pareto pts r).count x = 1) ∧
    (belowRef r x → x ∉ compute_pareto pts r) := by
  refine ⟨fun h => ?_, fun hx => ?_, fun hb hx => ?_⟩
  · rw [mem_compute_pareto, mem_compute_pareto]
    simp only [h.mem_iff]
  · have hn := nodup_compute_pareto pts r
    generalize compute_pareto pts r = l at hx hn
    induction l with
    | nil => cases hx
    | cons a l ih =>
      rcases List.mem_cons.mp hx with rfl | hxl
      · have hnx : x ∉ l := (List.nodup_cons.mp hn).1
        rw [List.count_cons_self]
        rw [List.count_eq_zero.mpr hnx]
      · have hne : x ≠ a := by
          rintro rfl; exact (List.nodup_cons.mp hn).1 hxl
        rw [List.count_cons_of_ne hne]
        exact ih hxl (List.nodup_cons.mp hn).2
  · exact ((mem_compute_pareto pts r x).mp hx).2.2 hb

theorem pareto_perm {pts pts' : List Point} (r : Point) (h : pts.Perm pts') :
    (compute_pareto pts r).Perm (compute_pareto pts' r) := by
  rw [List.perm_ext_iff_of_nodup (nodup_compute_pareto pts r)
    (nodup_compute_pareto pts' r)]
  intro x
  rw [mem_compute_pareto, mem_compute_pareto]
  simp only [h.mem_iff]

theorem sortedFront_perm_eq {pts pts' : List Point} (r : Point)
    (h : pts.Perm pts') :
    DominatedPartitioning.sortedFront ⟨r, pts⟩ =
      DominatedPartitioning.sortedFront ⟨r, pts'⟩ := by
  have hp : ((compute_pareto pts r).map (clampPt r)).Perm
      ((compute_pareto pts' r).map (clampPt r)) :=
    (pareto_perm r h).map _
  exact List.eq_of_perm_of_sorted
    ((List.perm_insertionSort lexLe _).trans
      (hp.trans (List.perm_insertionSort lexLe _).symm))
    (List.sorted_insertionSort lexLe _) (List.sorted_insertionSort lexLe _)

theorem foldl_add_points (bs : List (List Point)) :
    ∀ dp : DominatedPartitioning,
      bs.foldl DominatedPartitioning.add_points dp =
        ⟨dp.ref, dp.points ++ bs.flatten⟩ := by
  induction bs with
  | nil => intro dp; simp
  | cons b bs ih =>
    intro dp
    rw [List.foldl_cons, ih]
    simp [DominatedPartitioning.add_points]

/-- C2: applying `add_points` batch by batch, in any order and batching of
a fixed point multiset, yields the same final Pareto set (same
membership), the same final box set, and the same hypervolume as building
the decomposition from scratch on the full accumulated point set. -/
theorem c2_add_points_path_independent (dp : DominatedPartitioning)
    (bs : List (List Point)) (l : List Point) (h : bs.flatten.Perm l) :
    (∀ x, x ∈ (bs.foldl DominatedPartitioning.add_points dp).pareto ↔
      x ∈ (DominatedPartitioning.mk dp.ref (dp.points ++ l)).pareto) ∧
    (bs.foldl DominatedPartitioning.add_points dp).partition =
      (DominatedPartitioning.mk dp.ref (dp.points ++ l)).partition ∧
    (bs.foldl DominatedPartitioning.add_points dp).hypervolume =
      (DominatedPartitioning.mk dp.ref (dp.points ++ l)).hypervolume := by
  rw [foldl_add_points]
  have hperm : (dp.points ++ bs.flatten).Perm (dp.points ++ l) :=
    List.Perm.append_left _ h
  have hfront := sortedFront_perm_eq dp.ref hperm
  refine ⟨fun x => ?_, ?_, ?_⟩
  · simp only [DominatedPartitioning.pareto, mem_compute_pareto]
    simp only [hperm.mem_iff]
  · simp only [DominatedPartitioning.partition, hfront]
  · simp only [DominatedPartitioning.hypervolume,
      DominatedPartitioning.partition, hfront]

theorem c2_add_points_path_independent_witness :
    ([[((1 : ℚ), (5 : ℚ))], [(4, 2), (3, 3)]].foldl
        DominatedPartitioning.add_points ⟨(0, 0), []⟩).hypervolume =
      (DominatedPartitioning.mk ((0 : ℚ), (0 : ℚ))
        ([] ++ [(3, 3), (1, 5), (4, 2)])).hypervolume :=
  (c2_add_points_path_independent ⟨(0, 0), []⟩
    [[(1, 5)], [(4, 2), (3, 3)]] [(3, 3), (1, 5), (4, 2)] (by decide)).2.2

theorem hvBoxes_cons (b : Point × Point) (bs : List (Point × Point)) :
    hvBoxes (b :: bs) = boxVol b + hvBoxes bs := by
  simp [hvBoxes]

theorem dom_nondom_sum (r u : Point) :
    ∀ (l : List Point) (prevX : ℚ),
      hvBoxes (domBoxesGo r prevX l) + hvBoxes (nondomBoxesGo r u prevX l) =
        (u.1 - prevX) * (u.2 - r.2) := by
  intro l
  induction l with
  | nil =>
    intro prevX
    simp only [domBoxesGo, nondomBoxesGo, hvBoxes, List.map_nil,
      List.sum_nil, List.map_cons, List.sum_cons, boxVol]
    ring
  | cons p rest ih =>
    intro prevX
    have h := ih p.1
    simp only [domBoxesGo, nondomBoxesGo, hvBoxes_cons, boxVol] at h ⊢
    linear_combination h

/-- C4: for every reference point, outer bounding box and point set, the
hypervolume of the `DominatedPartitioning` plus the total volume of the
`NonDominatedPartitioning` built from the same inputs equals the volume of
the outer bounding box, exactly (the rational model carries no
floating-point rounding, so the tolerance-qualified equality is exact). -/
theorem c4_complement_volumes (r u : Point) (pts : List Point) :
    DominatedPartitioning.hypervolume ⟨r, pts⟩ +
      hvBoxes (NonDominatedPartitioning.partition ⟨r, u, pts⟩) =
      boxVol (r, u) := by
  have h := dom_nondom_sum r u (DominatedPartitioning.sortedFront ⟨r, pts⟩) r.1
  simpa [DominatedPartitioning.hypervolume, DominatedPartitioning.partition,
    domBoxes, NonDominatedPartitioning.partition,
    NonDominatedPartitioning.sortedFront, NonDominatedPartitioning.pareto,
    DominatedPartitioning.sortedFront, DominatedPartitioning.pareto,
    nondomBoxes, boxVol] using h

/-- C9: a reference point that weakly dominates every observed point (in
particular, an empty point set) yields an empty Pareto set, a dominated
hypervolume of zero, and a non-dominated partition consisting of the
entire outer bounding box; construction signals no error (the operations
are total).  Concretely, reference point (5,5) over {(1,5), (4,2), (3,3)}
yields dominated hypervolume 0. -/
theorem c9_degenerate_cases :
    (∀ (r u : Point) (pts : List Point), (∀ p ∈ pts, belowRef r p) →
      DominatedPartitioning.hypervolume ⟨r, pts⟩ = 0 ∧
        NonDominatedPartitioning.partition ⟨r, u, pts⟩ = [(r, u)]) ∧
    DominatedPartitioning.hypervolume ⟨(5, 5), [(1, 5), (4, 2), (3, 3)]⟩ = 0 := by
  constructor
  · intro r u pts h
    have hp : compute_pareto pts r = [] := by
      rw [List.eq_nil_iff_forall_not_mem]
      intro x hx
      have hx' := (mem_compute_pareto pts r x).mp hx
      exact hx'.2.2 (h x hx'.1)
    constructor
    · simp [DominatedPartitioning.hypervolume, DominatedPartitioning.partition,
        DominatedPartitioning.sortedFront, DominatedPartitioning.pareto, hp,
        domBoxes, domBoxesGo, hvBoxes, List.insertionSort]
    · simp [NonDominatedPartitioning.partition,
        NonDominatedPartitioning.sortedFront, NonDominatedPartitioning.pareto,
        hp, nondomBoxes, nondomBoxesGo, List.insertionSort]
  · decide

theorem c9_degenerate_cases_witness :
    DominatedPartitioning.hypervolume
        ⟨((5 : ℚ), (5 : ℚ)), [(1, 5), (4, 2), (3, 3)]⟩ = 0 ∧
      NonDominatedPartitioning.partition
        ⟨((5 : ℚ), (5 : ℚ)), (6, 6), [(1, 5), (4, 2), (3, 3)]⟩ =
        [((5, 5), (6, 6))] :=
  c9_degenerate_cases.1 (5, 5) (6, 6) [(1, 5), (4, 2), (3, 3)] (by decide)

/-- Staircase relation between sweep-ordered front points: abscissae
nondecreasing, ordinates nonincreasing. -/
def stairRel (a b : Point) : Prop := a.1 ≤ b.1 ∧ b.2 ≤ a.2

/-- A clamped, sweep-ordered front: pairwise staircase-shaped and bounded
below by the reference point in both coordinates. -/
def Stair (r : Point) (l : List Point) : Prop :=
  l.Pairwise stairRel ∧ ∀ p ∈ l, r.1 ≤ p.1 ∧ r.2 ≤ p.2

theorem dominates_iff_lt {q a : Point} : dominates q a ↔ a < q := by
  rw [Prod.lt_iff]
  unfold dominates
  constructor
  · rintro ⟨h1, h2, h3 | h3⟩
    · exact Or.inl ⟨h3, h2⟩
    · exact Or.inr ⟨h1, h3⟩
  · rintro (⟨h1, h2⟩ | ⟨h1, h2⟩)
    · exact ⟨le_of_lt h1, h2, Or.inl h1⟩
    · exact ⟨h1, le_of_lt h2, Or.inr h2⟩

theorem mem_sortedFront_iff {dp : DominatedPartitioning} {x : Point} :
    x ∈ dp.sortedFront ↔ ∃ p ∈ dp.pareto, x = clampPt dp.ref p := by
  unfold DominatedPartitioning.sortedFront
  rw [(List.perm_insertionSort lexLe _).mem_iff, List.mem_map]
  constructor
  · rintro ⟨p, hp, rfl⟩; exact ⟨p, hp, rfl⟩
  · rintro ⟨p, hp, rfl⟩; exact ⟨p, hp, rfl⟩

theorem max_eq_snd_of_lt_max {a b : ℚ} (h : a < max a b) : max a b = b := by
  rcases le_total b a with hba | hab
  · rw [max_eq_left hba] at h; exact absurd h (lt_irrefl a)
  · exact max_eq_right hab

theorem stair_sortedFront (dp : DominatedPartitioning) :
    Stair dp.ref dp.sortedFront := by
  constructor
  · have hs : dp.sortedFront.Pairwise lexLe :=
      List.sorted_insertionSort lexLe _
    refine hs.imp_of_mem ?_
    intro a b ha hb hab
    obtain ⟨a0, ha0, rfl⟩ := mem_sortedFront_iff.mp ha
    obtain ⟨b0, hb0, rfl⟩ := mem_sortedFront_iff.mp hb
    have ha0' := (mem_compute_pareto _ _ _).mp ha0
    have hb0' := (mem_compute_pareto _ _ _).mp hb0
    rcases hab with hlt | ⟨heq, hle⟩
    · refine ⟨le_of_lt hlt, ?_⟩
      by_contra hcon
      push_neg at hcon
      -- then b0 strictly dominates a0, contradicting a0 ∈ pareto
      have hr1 : dp.ref.1 ≤ (clampPt dp.ref a0).1 := le_max_left _ _
      have hr2 : dp.ref.2 ≤ (clampPt dp.ref a0).2 := le_max_left _ _
      have hb1 : (clampPt dp.ref b0).1 = b0.1 :=
        max_eq_snd_of_lt_max (lt_of_le_of_lt hr1 hlt)
      have hb2 : (clampPt dp.ref b0).2 = b0.2 :=
        max_eq_snd_of_lt_max (lt_of_le_of_lt hr2 hcon)
      have hd : dominates b0 a0 := by
        refine ⟨?_, ?_, Or.inl ?_⟩
        · exact le_of_lt (lt_of_le_of_lt (le_max_right _ _) (hb1 ▸ hlt))
        · exact le_of_lt (lt_of_le_of_lt (le_max_right _ _) (hb2 ▸ hcon))
        · exact lt_of_le_of_lt (le_max_right _ _) (hb1 ▸ hlt)
      exact ha0'.2.1 b0 hb0'.1 hd
    · exact ⟨le_of_eq heq, hle⟩
  · intro p hp
    obtain ⟨p0, _, rfl⟩ := mem_sortedFront_iff.mp hp
    exact ⟨le_max_left _ _, le_max_left _ _⟩

theorem sweepVol_nonneg (r : Point) :
    ∀ l : List Point, Stair r l → 0 ≤ sweepVol r l := by
  intro l
  induction l with
  | nil => intro _; simp [sweepVol]
  | cons p rest ih =>
    rintro ⟨hpw, hmem⟩
    have hp := hmem p (List.mem_cons_self _ _)
    have hrest : Stair r rest :=
      ⟨(List.pairwise_cons.mp hpw).2,
       fun q hq => hmem q (List.mem_cons_of_mem _ hq)⟩
    have hhd : hd2 r.2 rest ≤ p.2 := by
      cases rest with
      | nil => exact hp.2
      | cons q rest' =>
        exact ((List.pairwise_cons.mp hpw).1 q (List.mem_cons_self _ _)).2
    have h1 : (0 : ℚ) ≤ (p.1 - r.1) * (p.2 - hd2 r.2 rest) :=
      mul_nonneg (by linarith [hp.1]) (by linarith)
    have h2 := ih hrest
    simp only [sweepVol]
    linarith

theorem hv_domBoxesGo (r : Point) :
    ∀ (l : List Point) (prevX : ℚ),
      hvBoxes (domBoxesGo r prevX l) =
        sweepVol r l + (r.1 - prevX) * (hd2 r.2 l - r.2) := by
  intro l
  induction l with
  | nil =>
    intro prevX
    simp only [domBoxesGo, hvBoxes, List.map_nil, List.sum_nil, sweepVol, hd2]
    ring
  | cons p rest ih =>
    intro prevX
    have h := ih p.1
    simp only [domBoxesGo, hvBoxes_cons, boxVol, sweepVol, hd2] at h ⊢
    linear_combination h

theorem hypervolume_eq_sweepVol (dp : DominatedPartitioning) :
    dp.hypervolume = sweepVol dp.ref dp.sortedFront := by
  unfold DominatedPartitioning.hypervolume DominatedPartitioning.partition
    domBoxes
  rw [hv_domBoxesGo]
  ring

theorem hypervolume_nonneg (dp : DominatedPartitioning) :
    0 ≤ dp.hypervolume := by
  rw [hypervolume_eq_sweepVol]
  exact sweepVol_nonneg _ _ (stair_sortedFront dp)

/-- Real embedding of a rational point. -/
def toR2 (p : Point) : ℝ × ℝ := ((p.1 : ℝ), (p.2 : ℝ))

/-- The clamped box of one observed point: the axis-aligned rectangle
between the reference point and the point clamped at the reference
point. -/
def ptBox (r p : Point) : Set (ℝ × ℝ) :=
  Set.Icc (toR2 r) (toR2 (clampPt r p))

/-- The dominated region determined by a point list: the union of the
clamped boxes of its points. -/
def domRegion (r : Point) (pts : List Point) : Set (ℝ × ℝ) :=
  ⋃ p ∈ pts, ptBox r p

/-- Region spanned by an already clamped front list. -/
def stairRegion (r : Point) (l : List Point) : Set (ℝ × ℝ) :=
  ⋃ p ∈ l, Set.Icc (toR2 r) (toR2 p)

theorem stairRegion_nil (r : Point) : stairRegion r [] = ∅ := by
  simp [stairRegion]

theorem stairRegion_cons (r p : Point) (l : List Point) :
    stairRegion r (p :: l) =
      Set.Icc (toR2 r) (toR2 p) ∪ stairRegion r l := by
  ext z
  simp only [stairRegion, Set.mem_iUnion, List.mem_cons, Set.mem_union,
    exists_prop, exists_eq_or_imp]

theorem measurableSet_stairRegion (r : Point) :
    ∀ l : List Point, MeasurableSet (stairRegion r l) := by
  intro l
  induction l with
  | nil => rw [stairRegion_nil]; exact MeasurableSet.empty
  | cons p rest ih =>
    rw [stairRegion_cons]
    exact measurableSet_Icc.union ih

theorem domRegion_append (r : Point) (l₁ l₂ : List Point) :
    domRegion r (l₁ ++ l₂) = domRegion r l₁ ∪ domRegion r l₂ := by
  ext z
  simp only [domRegion, Set.mem_iUnion, Set.mem_union, List.mem_append,
    exists_prop]
  constructor
  · rintro ⟨p, hp | hp, hz⟩
    · exact Or.inl ⟨p, hp, hz⟩
    · exact Or.inr ⟨p, hp, hz⟩
  · rintro (⟨p, hp, hz⟩ | ⟨p, hp, hz⟩)
    · exact ⟨p, Or.inl hp, hz⟩
    · exact ⟨p, Or.inr hp, hz⟩

theorem domRegion_mono {r : Point} {l₁ l₂ : List Point}
    (h : ∀ x ∈ l₁, x ∈ l₂) : domRegion r l₁ ⊆ domRegion r l₂ := by
  intro z hz
  simp only [domRegion, Set.mem_iUnion, exists_prop] at hz ⊢
  obtain ⟨p, hp, hzp⟩ := hz
  exact ⟨p, h p hp, hzp⟩

theorem volume_Icc_prod (a b : ℝ × ℝ) :
    MeasureTheory.volume (Set.Icc a b) =
      ENNReal.ofReal (b.1 - a.1) * ENNReal.ofReal (b.2 - a.2) := by
  rw [Set.Icc_prod_eq, MeasureTheory.Measure.volume_eq_prod,
    MeasureTheory.Measure.prod_prod, Real.volume_Icc, Real.volume_Icc]

theorem volume_Icc_toR2 {a b : Point} (h1 : a.1 ≤ b.1) (h2 : a.2 ≤ b.2) :
    MeasureTheory.volume (Set.Icc (toR2 a) (toR2 b)) =
      ENNReal.ofReal (((b.1 - a.1) * (b.2 - a.2) : ℚ) : ℝ) := by
  rw [volume_Icc_prod]
  have h1' : ((a.1 : ℝ)) ≤ (b.1 : ℝ) := by exact_mod_cast h1
  rw [← ENNReal.ofReal_mul (by simp only [toR2]; linarith)]
  congr 1
  simp only [toR2]
  push_cast
  ring

theorem volume_stairRegion (r : Point) :
    ∀ l : List Point, Stair r l →
      MeasureTheory.volume (stairRegion r l) =
        ENNReal.ofReal ((sweepVol r l : ℚ) : ℝ) := by
  intro l
  induction l with
  | nil =>
    intro _
    rw [stairRegion_nil]
    simp [sweepVol]
  | cons p rest ih =>
    rintro ⟨hpw, hmem⟩
    have hp := hmem p (List.mem_cons_self _ _)
    have hrest : Stair r rest :=
      ⟨(List.pairwise_cons.mp hpw).2,
       fun q hq => hmem q (List.mem_cons_of_mem _ hq)⟩
    cases rest with
    | nil =>
      rw [stairRegion_cons, stairRegion_nil, Set.union_empty,
        volume_Icc_toR2 hp.1 hp.2]
      congr 1
      norm_num [sweepVol, hd2]
    | cons q rest' =>
      have hq := hmem q (List.mem_cons_of_mem _ (List.mem_cons_self _ _))
      have hpm : ∀ m ∈ q :: rest', stairRel p m :=
        (List.pairwise_cons.mp hpw).1
      have hqm : ∀ m ∈ q :: rest', m.2 ≤ q.2 := by
        intro m hm
        rcases List.mem_cons.mp hm with rfl | hm'
        · exact le_refl _
        · exact ((List.pairwise_cons.mp hrest.1).1 m hm').2
      have hpq : stairRel p q := hpm q (List.mem_cons_self _ _)
      have hinter : Set.Icc (toR2 r) (toR2 p) ∩ stairRegion r (q :: rest') =
          Set.Icc (toR2 r) (toR2 (p.1, q.2)) := by
        ext z
        constructor
        · rintro ⟨hzA, hzB⟩
          simp only [stairRegion, Set.mem_iUnion, exists_prop] at hzB
          obtain ⟨m, hm, hzm⟩ := hzB
          rw [Set.mem_Icc] at hzA hzm ⊢
          refine ⟨hzA.1, ?_⟩
          rw [Prod.le_def]
          refine ⟨(Prod.le_def.mp hzA.2).1, ?_⟩
          have hm2 : ((m.2 : ℝ)) ≤ ((q.2 : ℝ)) := by
            exact_mod_cast hqm m hm
          exact le_trans (Prod.le_def.mp hzm.2).2 hm2
        · intro hz
          rw [Set.mem_Icc] at hz
          have hz1 := (Prod.le_def.mp hz.2).1
          have hz2 := (Prod.le_def.mp hz.2).2
          constructor
          · rw [Set.mem_Icc]
            refine ⟨hz.1, Prod.le_def.mpr ⟨hz1, ?_⟩⟩
            have : ((q.2 : ℝ)) ≤ ((p.2 : ℝ)) := by exact_mod_cast hpq.2
            exact le_trans hz2 this
          · simp only [stairRegion, Set.mem_iUnion, exists_prop]
            refine ⟨q, List.mem_cons_self _ _, ?_⟩
            rw [Set.mem_Icc]
            refine ⟨hz.1, Prod.le_def.mpr ⟨?_, hz2⟩⟩
            have : ((p.1 : ℝ)) ≤ ((q.1 : ℝ)) := by exact_mod_cast hpq.1
            exact le_trans hz1 this
      have hmai : MeasureTheory.volume
            (Set.Icc (toR2 r) (toR2 p) ∪ stairRegion r (q :: rest')) +
          MeasureTheory.volume
            (Set.Icc (toR2 r) (toR2 p) ∩ stairRegion r (q :: rest')) =
          MeasureTheory.volume (Set.Icc (toR2 r) (toR2 p)) +
            MeasureTheory.volume (stairRegion r (q :: rest')) :=
        MeasureTheory.measure_union_add_inter _
          (measurableSet_stairRegion r (q :: rest'))
      have hIH := ih hrest
      have hvolA := volume_Icc_toR2 hp.1 hp.2
      have hvolI : MeasureTheory.volume
          (Set.Icc (toR2 r) (toR2 p) ∩ stairRegion r (q :: rest')) =
          ENNReal.ofReal (((p.1 - r.1) * (q.2 - r.2) : ℚ) : ℝ) := by
        rw [hinter]
        exact volume_Icc_toR2 hp.1 hq.2
      rw [stairRegion_cons]
      -- nonnegativity facts for combining ofReal terms
      have hT : (0 : ℚ) ≤ (p.1 - r.1) * (p.2 - r.2) :=
        mul_nonneg (by linarith [hp.1]) (by linarith [hp.2])
      have hC : (0 : ℚ) ≤ (p.1 - r.1) * (q.2 - r.2) :=
        mul_nonneg (by linarith [hp.1]) (by linarith [hq.2])
      have hSq : (0 : ℚ) ≤ sweepVol r (q :: rest') := sweepVol_nonneg r _ hrest
      have hS : (0 : ℚ) ≤ sweepVol r (p :: q :: rest') :=
        sweepVol_nonneg r _ ⟨hpw, hmem⟩
      have hT' : (0 : ℝ) ≤ (((p.1 - r.1) * (p.2 - r.2) : ℚ) : ℝ) := by
        exact_mod_cast hT
      have hC' : (0 : ℝ) ≤ (((p.1 - r.1) * (q.2 - r.2) : ℚ) : ℝ) := by
        exact_mod_cast hC
      have hSq' : (0 : ℝ) ≤ ((sweepVol r (q :: rest') : ℚ) : ℝ) := by
        exact_mod_cast hSq
      have hS' : (0 : ℝ) ≤ ((sweepVol r (p :: q :: rest') : ℚ) : ℝ) := by
        exact_mod_cast hS
      have hdef : sweepVol r (p :: q :: rest') =
          (p.1 - r.1) * (p.2 - q.2) + sweepVol r (q :: rest') := by
        simp [sweepVol, hd2]
      have key : MeasureTheory.volume
            (Set.Icc (toR2 r) (toR2 p) ∪ stairRegion r (q :: rest')) +
            ENNReal.ofReal (((p.1 - r.1) * (q.2 - r.2) : ℚ) : ℝ) =
          ENNReal.ofReal ((sweepVol r (p :: q :: rest') : ℚ) : ℝ) +
            ENNReal.ofReal (((p.1 - r.1) * (q.2 - r.2) : ℚ) : ℝ) := by
        calc MeasureTheory.volume
              (Set.Icc (toR2 r) (toR2 p) ∪ stairRegion r (q :: rest')) +
              ENNReal.ofReal (((p.1 - r.1) * (q.2 - r.2) : ℚ) : ℝ)
            = MeasureTheory.volume
                (Set.Icc (toR2 r) (toR2 p) ∪ stairRegion r (q :: rest')) +
              MeasureTheory.volume
                (Set.Icc (toR2 r) (toR2 p) ∩ stairRegion r (q :: rest')) := by
              rw [hvolI]
          _ = MeasureTheory.volume (Set.Icc (toR2 r) (toR2 p)) +
              MeasureTheory.volume (stairRegion r (q :: rest')) := hmai
          _ = ENNReal.ofReal (((p.1 - r.1) * (p.2 - r.2) : ℚ) : ℝ) +
              ENNReal.ofReal ((sweepVol r (q :: rest') : ℚ) : ℝ) := by
              rw [hvolA, hIH]
          _ = ENNReal.ofReal ((((p.1 - r.1) * (p.2 - r.2) : ℚ) : ℝ) +
              ((sweepVol r (q :: rest') : ℚ) : ℝ)) :=
              (ENNReal.ofReal_add hT' hSq').symm
          _ = ENNReal.ofReal (((sweepVol r (p :: q :: rest') : ℚ) : ℝ) +
              (((p.1 - r.1) * (q.2 - r.2) : ℚ) : ℝ)) := by
              congr 1
              rw [hdef]
              push_cast
              ring
          _ = ENNReal.ofReal ((sweepVol r (p :: q :: rest') : ℚ) : ℝ) +
              ENNReal.ofReal (((p.1 - r.1) * (q.2 - r.2) : ℚ) : ℝ) :=
              ENNReal.ofReal_add hS' hC'
      have hne : ENNReal.ofReal (((p.1 - r.1) * (q.2 - r.2) : ℚ) : ℝ) ≠ ⊤ :=
        ENNReal.ofReal_ne_top
      exact ((ENNReal.cancel_of_ne hne).inj_left).mp key

theorem stairRegion_sortedFront (dp : DominatedPartitioning) :
    stairRegion dp.ref dp.sortedFront = domRegion dp.ref dp.pareto := by
  ext z
  simp only [stairRegion, domRegion, Set.mem_iUnion, exists_prop, ptBox]
  constructor
  · rintro ⟨s, hs, hz⟩
    obtain ⟨p, hp, rfl⟩ := mem_sortedFront_iff.mp hs
    exact ⟨p, hp, hz⟩
  · rintro ⟨p, hp, hz⟩
    exact ⟨clampPt dp.ref p, mem_sortedFront_iff.mpr ⟨p, hp, rfl⟩, hz⟩

theorem exists_pareto_above {pts : List Point} {r p : Point}
    (hp : p ∈ pts) (hb : ¬ belowRef r p) :
    ∃ m ∈ compute_pareto pts r, p.1 ≤ m.1 ∧ p.2 ≤ m.2 := by
  classical
  have hne : (pts.toFinset.filter (fun q => p ≤ q)).Nonempty :=
    ⟨p, Finset.mem_filter.mpr ⟨List.mem_toFinset.mpr hp, le_refl p⟩⟩
  obtain ⟨m, hm, hmax⟩ := Finset.exists_maximal _ hne
  rw [Finset.mem_filter, List.mem_toFinset] at hm
  have hblem : ¬ belowRef r m := by
    intro hbm
    exact hb ⟨le_trans (Prod.le_def.mp hm.2).1 hbm.1,
      le_trans (Prod.le_def.mp hm.2).2 hbm.2⟩
  refine ⟨m, ?_, (Prod.le_def.mp hm.2).1, (Prod.le_def.mp hm.2).2⟩
  rw [mem_compute_pareto]
  refine ⟨hm.1, fun q hq hdom => ?_, hblem⟩
  have hlt : m < q := dominates_iff_lt.mp hdom
  exact hmax q (Finset.mem_filter.mpr ⟨List.mem_toFinset.mpr hq,
    le_trans hm.2 hlt.le⟩) hlt

theorem volume_vertLine (c : ℝ) :
    MeasureTheory.volume {z : ℝ × ℝ | z.1 = c} = 0 := by
  have h : {z : ℝ × ℝ | z.1 = c} = ({c} : Set ℝ) ×ˢ (Set.univ : Set ℝ) := by
    ext z
    constructor
    · intro hz
      exact Set.mem_prod.mpr ⟨Set.mem_singleton_iff.mpr hz, trivial⟩
    · intro hz
      exact Set.mem_singleton_iff.mp (Set.mem_prod.mp hz).1
  rw [h, MeasureTheory.Measure.volume_eq_prod,
    MeasureTheory.Measure.prod_prod]
  simp

theorem domRegion_subset_pareto_union (pts : List Point) (r : Point) :
    domRegion r pts ⊆
      domRegion r (compute_pareto pts r) ∪
        {z : ℝ × ℝ | z.1 = (r.1 : ℝ)} := by
  intro z hz
  simp only [domRegion, Set.mem_iUnion, exists_prop] at hz
  obtain ⟨p, hp, hzp⟩ := hz
  rw [ptBox, Set.mem_Icc] at hzp
  by_cases hb : belowRef r p
  · right
    have hcl : (clampPt r p).1 = r.1 := max_eq_left hb.1
    have h1 : (r.1 : ℝ) ≤ z.1 := (Prod.le_def.mp hzp.1).1
    have h2 : z.1 ≤ (((clampPt r p).1 : ℚ) : ℝ) := (Prod.le_def.mp hzp.2).1
    rw [hcl] at h2
    exact le_antisymm h2 h1
  · left
    obtain ⟨m, hm, hm1, hm2⟩ := exists_pareto_above hp hb
    simp only [domRegion, Set.mem_iUnion, exists_prop]
    refine ⟨m, hm, ?_⟩
    rw [ptBox, Set.mem_Icc]
    refine ⟨hzp.1, le_trans hzp.2 ?_⟩
    rw [Prod.le_def]
    simp only [toR2, clampPt]
    constructor
    · exact_mod_cast max_le_max (le_refl r.1) hm1
    · exact_mod_cast max_le_max (le_refl r.2) hm2

theorem volume_union_congr_of_null {A X N : Set (ℝ × ℝ)}
    (B : Set (ℝ × ℝ)) (hAX : A ⊆ X) (hXA : X ⊆ A ∪ N)
    (hN : MeasureTheory.volume N = 0) :
    MeasureTheory.volume (X ∪ B) = MeasureTheory.volume (A ∪ B) := by
  refine le_antisymm ?_
    (MeasureTheory.measure_mono (Set.union_subset_union_left B hAX))
  calc MeasureTheory.volume (X ∪ B)
      ≤ MeasureTheory.volume ((A ∪ B) ∪ N) := by
        refine MeasureTheory.measure_mono ?_
        intro z hz
        rcases hz with hz | hz
        · rcases hXA hz with h | h
          · exact Or.inl (Or.inl h)
          · exact Or.inr h
        · exact Or.inl (Or.inr hz)
    _ ≤ MeasureTheory.volume (A ∪ B) + MeasureTheory.volume N := by
        apply MeasureTheory.measure_union_le
    _ = MeasureTheory.volume (A ∪ B) := by rw [hN, add_zero]

theorem volume_domRegion (dp : DominatedPartitioning) :
    MeasureTheory.volume (domRegion dp.ref dp.points) =
      ENNReal.ofReal ((dp.hypervolume : ℚ) : ℝ) := by
  have hAX : stairRegion dp.ref dp.sortedFront ⊆ domRegion dp.ref dp.points := by
    rw [stairRegion_sortedFront]
    exact domRegion_mono (fun x hx => ((mem_compute_pareto _ _ x).mp hx).1)
  have hXA : domRegion dp.ref dp.points ⊆
      stairRegion dp.ref dp.sortedFront ∪
        {z : ℝ × ℝ | z.1 = (dp.ref.1 : ℝ)} := by
    rw [stairRegion_sortedFront]
    exact domRegion_subset_pareto_union _ _
  have h0 := volume_union_congr_of_null ∅ hAX hXA (volume_vertLine _)
  rw [Set.union_empty, Set.union_empty] at h0
  rw [h0, volume_stairRegion _ _ (stair_sortedFront dp),
    hypervolume_eq_sweepVol]

/-- C3: hypervolume is monotonically non-decreasing under `add_points`:
for every decomposition and every sequence of added points, the
hypervolume after the call is at least the hypervolume before it. -/
theorem c3_hypervolume_monotone (dp : DominatedPartitioning)
    (ps : List Point) :
    dp.hypervolume ≤ (dp.add_points ps).hypervolume := by
  have h1 := volume_domRegion dp
  have h2 := volume_domRegion (dp.add_points ps)
  have hsub : domRegion dp.ref dp.points ⊆
      domRegion (dp.add_points ps).ref (dp.add_points ps).points := by
    simp only [DominatedPartitioning.add_points]
    exact domRegion_mono (fun x hx => List.mem_append_left ps hx)
  have hmono : MeasureTheory.volume (domRegion dp.ref dp.points) ≤
      MeasureTheory.volume
        (domRegion (dp.add_points ps).ref (dp.add_points ps).points) :=
    MeasureTheory.measure_mono hsub
  rw [h1, h2] at hmono
  have hnn : (0 : ℝ) ≤ (((dp.add_points ps).hypervolume : ℚ) : ℝ) := by
    exact_mod_cast hypervolume_nonneg (dp.add_points ps)
  rw [ENNReal.ofReal_le_ofReal_iff hnn] at hmono
  exact_mod_cast hmono

theorem hviGo_eq (c : Point) (r : Point) :
    ∀ (l : List Point) (prevMin : ℚ),
      hviGo c r.2 prevMin l =
        (c.1 - prevMin) * (c.2 - r.2) -
          hvBoxes (domBoxesGo r prevMin
            (l.map (fun q => (min c.1 q.1, min c.2 q.2)))) := by
  intro l
  induction l with
  | nil =>
    intro prevMin
    simp only [hviGo, List.map_nil, domBoxesGo, hvBoxes, List.map_nil,
      List.sum_nil]
    ring
  | cons q rest ih =>
    intro prevMin
    have h := ih (min c.1 q.1)
    simp only [hviGo, List.map_cons, domBoxesGo, hvBoxes_cons, boxVol] at h ⊢
    linear_combination h

theorem stair_minMap {r c : Point} {l : List Point} (hc1 : r.1 ≤ c.1)
    (hc2 : r.2 ≤ c.2) (hl : Stair r l) :
    Stair r (l.map (fun q => (min c.1 q.1, min c.2 q.2))) := by
  constructor
  · rw [List.pairwise_map]
    refine hl.1.imp ?_
    intro a b hab
    exact ⟨min_le_min le_rfl hab.1, min_le_min le_rfl hab.2⟩
  · intro p hp
    rw [List.mem_map] at hp
    obtain ⟨q, hq, rfl⟩ := hp
    exact ⟨le_min hc1 (hl.2 q hq).1, le_min hc2 (hl.2 q hq).2⟩

theorem stairRegion_inter_box (r c : Point) (l : List Point) :
    stairRegion r l ∩ Set.Icc (toR2 r) (toR2 c) =
      stairRegion r (l.map (fun q => (min c.1 q.1, min c.2 q.2))) := by
  ext z
  simp only [stairRegion, Set.mem_inter_iff, Set.mem_iUnion, exists_prop,
    List.mem_map]
  constructor
  · rintro ⟨⟨s, hs, hzs⟩, hzc⟩
    refine ⟨(min c.1 s.1, min c.2 s.2), ⟨s, hs, rfl⟩, ?_⟩
    rw [Set.mem_Icc] at hzs hzc ⊢
    refine ⟨hzs.1, Prod.le_def.mpr ⟨?_, ?_⟩⟩
    · have h1 := (Prod.le_def.mp hzc.2).1
      have h2 := (Prod.le_def.mp hzs.2).1
      simp only [toR2] at h1 h2 ⊢
      push_cast
      exact le_min h1 h2
    · have h1 := (Prod.le_def.mp hzc.2).2
      have h2 := (Prod.le_def.mp hzs.2).2
      simp only [toR2] at h1 h2 ⊢
      push_cast
      exact le_min h1 h2
  · rintro ⟨m, ⟨s, hs, rfl⟩, hzm⟩
    rw [Set.mem_Icc] at hzm
    have h1 := (Prod.le_def.mp hzm.2).1
    have h2 := (Prod.le_def.mp hzm.2).2
    simp only [toR2] at h1 h2
    rw [Rat.cast_min] at h1 h2
    constructor
    · refine ⟨s, hs, Set.mem_Icc.mpr ⟨hzm.1, Prod.le_def.mpr ⟨?_, ?_⟩⟩⟩
      · exact le_trans h1 (min_le_right _ _)
      · exact le_trans h2 (min_le_right _ _)
    · refine Set.mem_Icc.mpr ⟨hzm.1, Prod.le_def.mpr ⟨?_, ?_⟩⟩
      · exact le_trans h1 (min_le_left _ _)
      · exact le_trans h2 (min_le_left _ _)

/-- C6: `hypervolume_improvement` (computed by the closed-form incremental
scan, with no partition rebuild and no mutation of the purely functional
decomposition state) returns exactly the hypervolume of the decomposition
with the point added minus the hypervolume of the decomposition. -/
theorem c6_hypervolume_improvement (dp : DominatedPartitioning) (p : Point) :
    dp.hypervolume_improvement p =
      (dp.add_points [p]).hypervolume - dp.hypervolume := by
  have hc1 : dp.ref.1 ≤ (clampPt dp.ref p).1 := le_max_left _ _
  have hc2 : dp.ref.2 ≤ (clampPt dp.ref p).2 := le_max_left _ _
  have hstair := stair_sortedFront dp
  have hstairM := stair_minMap hc1 hc2 hstair
  have hreg : domRegion dp.ref (dp.points ++ [p]) =
      domRegion dp.ref dp.points ∪
        Set.Icc (toR2 dp.ref) (toR2 (clampPt dp.ref p)) := by
    rw [domRegion_append]
    congr 1
    ext z
    simp [domRegion, ptBox]
  have hAX : stairRegion dp.ref dp.sortedFront ⊆ domRegion dp.ref dp.points := by
    rw [stairRegion_sortedFront]
    exact domRegion_mono (fun x hx => ((mem_compute_pareto _ _ x).mp hx).1)
  have hXA : domRegion dp.ref dp.points ⊆
      stairRegion dp.ref dp.sortedFront ∪
        {z : ℝ × ℝ | z.1 = (dp.ref.1 : ℝ)} := by
    rw [stairRegion_sortedFront]
    exact domRegion_subset_pareto_union _ _
  have hXB := volume_union_congr_of_null
    (Set.Icc (toR2 dp.ref) (toR2 (clampPt dp.ref p))) hAX hXA
    (volume_vertLine _)
  have hmai : MeasureTheory.volume
        (stairRegion dp.ref dp.sortedFront ∪
          Set.Icc (toR2 dp.ref) (toR2 (clampPt dp.ref p))) +
      MeasureTheory.volume
        (stairRegion dp.ref dp.sortedFront ∩
          Set.Icc (toR2 dp.ref) (toR2 (clampPt dp.ref p))) =
      MeasureTheory.volume (stairRegion dp.ref dp.sortedFront) +
        MeasureTheory.volume
          (Set.Icc (toR2 dp.ref) (toR2 (clampPt dp.ref p))) :=
    MeasureTheory.measure_union_add_inter _ measurableSet_Icc
  have hafter : MeasureTheory.volume (domRegion dp.ref (dp.points ++ [p])) =
      ENNReal.ofReal (((dp.add_points [p]).hypervolume : ℚ) : ℝ) := by
    have h := volume_domRegion (dp.add_points [p])
    simpa [DominatedPartitioning.add_points] using h
  have hinter := stairRegion_inter_box dp.ref (clampPt dp.ref p) dp.sortedFront
  have hvolM := volume_stairRegion dp.ref _ hstairM
  have hvolF := volume_stairRegion dp.ref _ hstair
  have hvolC := volume_Icc_toR2 hc1 hc2
  -- the ENNReal balance equation
  have hbal : ENNReal.ofReal (((dp.add_points [p]).hypervolume : ℚ) : ℝ) +
      ENNReal.ofReal ((sweepVol dp.ref
        (dp.sortedFront.map (fun q =>
          (min (clampPt dp.ref p).1 q.1, min (clampPt dp.ref p).2 q.2))) : ℚ) : ℝ) =
      ENNReal.ofReal ((sweepVol dp.ref dp.sortedFront : ℚ) : ℝ) +
      ENNReal.ofReal ((((clampPt dp.ref p).1 - dp.ref.1) *
        ((clampPt dp.ref p).2 - dp.ref.2) : ℚ) : ℝ) := by
    rw [← hafter, hreg, hXB, ← hvolM, ← hvolF, ← hvolC, ← hinter]
    exact hmai
  -- convert to a rational identity
  have hnn1 : (0 : ℚ) ≤ (dp.add_points [p]).hypervolume :=
    hypervolume_nonneg _
  have hnn2 : (0 : ℚ) ≤ sweepVol dp.ref
      (dp.sortedFront.map (fun q =>
        (min (clampPt dp.ref p).1 q.1, min (clampPt dp.ref p).2 q.2))) :=
    sweepVol_nonneg _ _ hstairM
  have hnn3 : (0 : ℚ) ≤ sweepVol dp.ref dp.sortedFront :=
    sweepVol_nonneg _ _ hstair
  have hnn4 : (0 : ℚ) ≤ ((clampPt dp.ref p).1 - dp.ref.1) *
      ((clampPt dp.ref p).2 - dp.ref.2) :=
    mul_nonneg (by linarith) (by linarith)
  have hQ : (dp.add_points [p]).hypervolume + sweepVol dp.ref
      (dp.sortedFront.map (fun q =>
        (min (clampPt dp.ref p).1 q.1, min (clampPt dp.ref p).2 q.2))) =
      sweepVol dp.ref dp.sortedFront +
        ((clampPt dp.ref p).1 - dp.ref.1) *
          ((clampPt dp.ref p).2 - dp.ref.2) := by
    have hbal' := hbal
    rw [← ENNReal.ofReal_add (by exact_mod_cast hnn1) (by exact_mod_cast hnn2),
      ← ENNReal.ofReal_add (by exact_mod_cast hnn3) (by exact_mod_cast hnn4)]
      at hbal'
    have := (ENNReal.ofReal_eq_ofReal_iff
      (by positivity) (by positivity)).mp hbal'
    exact_mod_cast this
  -- the closed-form scan evaluates to box volume minus overlap
  have hform := hviGo_eq (clampPt dp.ref p) dp.ref dp.sortedFront dp.ref.1
  have hoverlap : hvBoxes (domBoxesGo dp.ref dp.ref.1
      (dp.sortedFront.map (fun q =>
        (min (clampPt dp.ref p).1 q.1, min (clampPt dp.ref p).2 q.2)))) =
      sweepVol dp.ref (dp.sortedFront.map (fun q =>
        (min (clampPt dp.ref p).1 q.1, min (clampPt dp.ref p).2 q.2))) := by
    rw [hv_domBoxesGo]
    ring
  have hsw := hypervolume_eq_sweepVol dp
  unfold DominatedPartitioning.hypervolume_improvement
  rw [hform, hoverlap]
  linarith

theorem validatePoint_error_iff (p : RawPoint) :
    (∃ e, validatePoint p = .error e) ↔ badPoint p := by
  rcases p with _ | ⟨v, _ | ⟨w, _ | ⟨x, rest⟩⟩⟩
  · simp [validatePoint, badPoint]
  · cases v <;> simp [validatePoint, badPoint, Val.isFinite]
  · cases v <;> cases w <;>
      simp [validatePoint, badPoint, Val.isFinite]
  · cases v <;> cases w <;>
      simp [validatePoint, badPoint, Val.isFinite]

theorem validatePoints_error_iff (ps : List RawPoint) :
    (∃ e, validatePoints ps = .error e) ↔ ∃ p ∈ ps, badPoint p := by
  induction ps with
  | nil => simp [validatePoints]
  | cons p rest ih =>
    rcases hvp : validatePoint p with e' | q
    · have hbp : badPoint p := (validatePoint_error_iff p).mp ⟨e', hvp⟩
      simp only [validatePoints, hvp]
      constructor
      · intro _; exact ⟨p, List.mem_cons_self _ _, hbp⟩
      · intro _; exact ⟨e', rfl⟩
    · have hbp : ¬ badPoint p := by
        rw [← validatePoint_error_iff]
        rintro ⟨e, he⟩
        rw [hvp] at he
        cases he
      simp only [validatePoints, hvp]
      rcases hvr : validatePoints rest with e2 | qs
      · constructor
        · intro _
          obtain ⟨pp, hpp, hbb⟩ := ih.mp ⟨e2, hvr⟩
          exact ⟨pp, List.mem_cons_of_mem _ hpp, hbb⟩
        · intro _; exact ⟨e2, rfl⟩
      · constructor
        · rintro ⟨e, he⟩
          cases he
        · rintro ⟨pp, hpp, hbb⟩
          rcases List.mem_cons.mp hpp with rfl | hpp'
          · exact absurd hbb hbp
          · obtain ⟨e, he⟩ := ih.mpr ⟨pp, hpp', hbb⟩
            rw [hvr] at he
            cases he

/-- C7: the validating `add_points` entry point fails if and only if some
supplied raw point has a coordinate count different from the reference
point's (M = 2) or contains a non-finite coordinate; on success the new
state is exactly the old state with all validated points appended.  All
validation happens before the state is rebuilt, and a failing call
returns only the error, never a partially updated state, so the caller's
decomposition (point set, Pareto set and partition) is exactly as before
the call. -/
theorem c7_add_points_checked_validation (dp : DominatedPartitioning)
    (raws : List RawPoint) :
    ((∃ p ∈ raws, badPoint p) ↔
      ∃ e, dp.add_points_checked raws = .error e) ∧
    (∀ dp', dp.add_points_checked raws = .ok dp' →
      ∃ qs, validatePoints raws = .ok qs ∧
        dp'.ref = dp.ref ∧ dp'.points = dp.points ++ qs) := by
  constructor
  · rw [← validatePoints_error_iff]
    unfold DominatedPartitioning.add_points_checked
    rcases h : validatePoints raws with e | qs <;> simp [h]
  · intro dp' hok
    unfold DominatedPartitioning.add_points_checked at hok
    rcases h : validatePoints raws with e | qs
    · rw [h] at hok; cases hok
    · rw [h] at hok
      injection hok with hok'
      subst hok'
      exact ⟨qs, rfl, rfl, rfl⟩

theorem c7_add_points_checked_validation_witness :
    (∃ e, DominatedPartitioning.add_points_checked ⟨(0, 0), []⟩
        [[Val.fin 1], [Val.fin 1, Val.fin 5]] = .error e) ∧
    (∃ qs, validatePoints [[Val.fin 1, Val.fin 5]] = .ok qs ∧
      (DominatedPartitioning.mk ((0 : ℚ), (0 : ℚ)) ([(2, 2)] ++ [(1, 5)])).ref =
        (DominatedPartitioning.mk ((0 : ℚ), (0 : ℚ)) [(2, 2)]).ref ∧
      (DominatedPartitioning.mk ((0 : ℚ), (0 : ℚ)) ([(2, 2)] ++ [(1, 5)])).points =
        (DominatedPartitioning.mk ((0 : ℚ), (0 : ℚ)) [(2, 2)]).points ++ qs) :=
  ⟨(c7_add_points_checked_validation ⟨(0, 0), []⟩
      [[Val.fin 1], [Val.fin 1, Val.fin 5]]).1.mp
      ⟨[Val.fin 1], by decide, by decide⟩,
   (c7_add_points_checked_validation ⟨(0, 0), [(2, 2)]⟩
      [[Val.fin 1, Val.fin 5]]).2 ⟨(0, 0), [(2, 2)] ++ [(1, 5)]⟩ rfl⟩

/-- C10: batched operations are per-index: the i-th batched hypervolume is
the hypervolume of the i-th decomposition alone, the i-th result of the
ragged batched `add_points` is a function of the i-th decomposition and
the i-th point set alone (so a rejection at one index cannot affect any
other index), an index given an empty point set keeps its decomposition
unchanged, and a rejected index keeps its decomposition unchanged. -/
theorem c10_batch_independence (b : BatchBoxDecompositionList)
    (pss : List (List RawPoint)) (i : ℕ)
    (h1 : i < b.length) (h2 : i < (batch_hypervolume b).length)
    (h3 : i < (batch_add_points b pss).length) (h4 : i < pss.length) :
    ((batch_hypervolume b).get ⟨i, h2⟩ =
      DominatedPartitioning.hypervolume (b.get ⟨i, h1⟩)) ∧
    ((batch_add_points b pss).get ⟨i, h3⟩ =
      batchUpdate (b.get ⟨i, h1⟩) (pss.get ⟨i, h4⟩)) ∧
    (∀ dp : DominatedPartitioning, batchUpdate dp [] = dp) ∧
    (∀ (dp : DominatedPartitioning) (raws : List RawPoint)
      (e : BoxDecompositionError),
      dp.add_points_checked raws = .error e → batchUpdate dp raws = dp) := by
  refine ⟨?_, ?_, ?_, ?_⟩
  · simp [batch_hypervolume]
  · simp [batch_add_points]
  · intro dp
    simp [batchUpdate, DominatedPartitioning.add_points_checked,
      validatePoints, DominatedPartitioning.add_points]
  · intro dp raws e he
    unfold batchUpdate
    rw [he]

theorem c10_batch_independence_witness :
    ((batch_hypervolume [⟨(0, 0), [(1, 5)]⟩]).get ⟨0, by decide⟩ =
      DominatedPartitioning.hypervolume
        (([⟨(0, 0), [(1, 5)]⟩] : BatchBoxDecompositionList).get
          ⟨0, by decide⟩)) ∧
    (∀ dp : DominatedPartitioning, batchUpdate dp [] = dp) :=
  ⟨(c10_batch_independence [⟨(0, 0), [(1, 5)]⟩] [[]] 0
      (by decide) (by decide) (by decide) (by decide)).1,
   (c10_batch_independence [⟨(0, 0), [(1, 5)]⟩] [[]] 0
      (by decide) (by decide) (by decide) (by decide)).2.2.1⟩

theorem c8_compute_pareto_determinism_witness :
    ((1, 5) ∈ compute_pareto [((1 : ℚ), (5 : ℚ)), (3, 3)] (0, 0) ↔
      (1, 5) ∈ compute_pareto [((3 : ℚ), (3 : ℚ)), (1, 5)] (0, 0)) ∧
    (compute_pareto [((1 : ℚ), (5 : ℚ)), (3, 3)] (0, 0)).count (1, 5) = 1 ∧
    (0, 0) ∉ compute_pareto [((0 : ℚ), (0 : ℚ)), (3, 3)] (1, 1) :=
  ⟨(c8_compute_pareto_determinism [(1, 5), (3, 3)] [(3, 3), (1, 5)]
      (0, 0) (1, 5)).1 (by decide),
   (c8_compute_pareto_determinism [(1, 5), (3, 3)] [(3, 3), (1, 5)]
      (0, 0) (1, 5)).2.1 (by decide),
   (c8_compute_pareto_determinism [(0, 0), (3, 3)] [(0, 0), (3, 3)]
      (1, 1) (0, 0)).2.2 (by decide)⟩
